import Mathlib

/-!
Verification of the tailwind-rs-extractor specification against its source.

Strings from the Rust source are modelled as `List Char`. Rust's
`char::is_whitespace` / `is_ascii_alphanumeric` are modelled by Lean's
`Char.isWhitespace` / `Char.isAlphanum`; the Unicode code points beyond the
ASCII range where the two differ play no role in any claim considered here.
-/

namespace TWX

/-- Whitespace test used throughout (`char::is_whitespace` in the source). -/
def isWS (c : Char) : Bool := c.isWhitespace

/-- `pat.isPrefixOf s` for char lists (Rust `str::starts_with`). -/
def startsWithL : List Char → List Char → Bool
  | [], _ => true
  | _ :: _, [] => false
  | p :: ps, c :: cs => p == c && startsWithL ps cs

/-- Substring containment (Rust `str::contains(&str)`). -/
def hasSub (pat : List Char) : List Char → Bool
  | [] => startsWithL pat []
  | c :: cs => startsWithL pat (c :: cs) || hasSub pat cs

/-- Accumulator-based whitespace splitter; `acc` holds the current token
reversed.  Mirrors Rust `str::split_whitespace`: no empty tokens. -/
def splitWSAux : List Char → List Char → List (List Char)
  | [], acc => if acc.isEmpty then [] else [acc.reverse]
  | c :: rest, acc =>
      if isWS c then
        if acc.isEmpty then splitWSAux rest []
        else acc.reverse :: splitWSAux rest []
      else splitWSAux rest (c :: acc)

/-- Rust `str::split_whitespace` on char lists. -/
def splitWS (s : List Char) : List (List Char) := splitWSAux s []

/-- Join tokens with single spaces (the shape produced when a class list is
re-assembled token by token). -/
def joinWS : List (List Char) → List Char
  | [] => []
  | [t] => t
  | t :: u :: rest => t ++ ' ' :: joinWS (u :: rest)

/-- The leading whitespace run of `s` (`class_string[..content_start]`). -/
def leadingWS (s : List Char) : List Char := s.takeWhile isWS

/-- The trailing whitespace run of `s` (`class_string[content_end..]`). -/
def trailingWS (s : List Char) : List Char := (s.reverse.takeWhile isWS).reverse

/-- Rust `str::trim`: drop whitespace from both ends. -/
def trimChars (s : List Char) : List Char :=
  ((s.dropWhile isWS).reverse.dropWhile isWS).reverse

/-- `TailwindClassProcessor::process_with_fallback` (src/class_processor.rs,
lines 28-57).  The external `TailwindBuilder::trace` oracle is a parameter:
`none` models `Err(_)`. -/
def process_with_fallback (traceFn : List Char → Bool → Option (List Char))
    (class_string : List Char) (obfuscate : Bool) : List Char :=
  let trimmed := trimChars class_string
  if trimmed.isEmpty then class_string
  else
    match traceFn trimmed obfuscate with
    | some result => leadingWS class_string ++ result ++ trailingWS class_string
    | none => class_string

/-- Modelled from the spec: the class-compiler oracle `trace` of the external
`tailwind_rs` crate (not part of this repository).  Per §4.3/§6 of the spec it
classifies each whitespace-delimited token independently (`classify(token,
obfuscate)`), passes unrecognized tokens through unchanged, and normalizes
internal whitespace runs to single spaces.  `f` is the per-token transform
(already specialised by the obfuscate flag at call sites below). -/
def traceModel (f : Bool → List Char → List Char)
    (s : List Char) (obfuscate : Bool) : Option (List Char) :=
  some (joinWS ((splitWS s).map (f obfuscate)))

/-- A per-token oracle output that is a single class token: non-empty and
whitespace-free. -/
def TokenLike (t : List Char) : Prop := t ≠ [] ∧ ∀ c ∈ t, ¬ isWS c

theorem splitWSAux_ws {w : List Char} (acc : List Char) (h : ∀ c ∈ w, isWS c) :
    splitWSAux w acc = if acc.isEmpty then [] else [acc.reverse] := by
  induction w generalizing acc with
  | nil => rfl
  | cons c rest ih =>
      have hc : isWS c := h c (List.mem_cons_self ..)
      by_cases ha : acc.isEmpty
      · simp [splitWSAux, hc, ha, ih [] (fun x hx => h x (List.mem_cons_of_mem _ hx))]
      · simp [splitWSAux, hc, ha, ih [] (fun x hx => h x (List.mem_cons_of_mem _ hx))]

theorem splitWSAux_append_ws {w : List Char} (s acc : List Char)
    (h : ∀ c ∈ w, isWS c) : splitWSAux (s ++ w) acc = splitWSAux s acc := by
  induction s generalizing acc with
  | nil => simp [splitWSAux, splitWSAux_ws acc h]
  | cons c rest ih =>
      by_cases hc : isWS c
      · by_cases ha : acc.isEmpty <;> simp [splitWSAux, hc, ha, ih]
      · simp [splitWSAux, hc, ih]

theorem splitWSAux_ws_prefix {w : List Char} (s : List Char)
    (h : ∀ c ∈ w, isWS c) : splitWSAux (w ++ s) [] = splitWSAux s [] := by
  induction w with
  | nil => rfl
  | cons c rest ih =>
      have hc : isWS c := h c (List.mem_cons_self ..)
      simp [splitWSAux, hc, List.isEmpty]
      exact ih (fun x hx => h x (List.mem_cons_of_mem _ hx))

theorem splitWSAux_token {tok : List Char} (s acc : List Char)
    (h : ∀ c ∈ tok, ¬ isWS c) :
    splitWSAux (tok ++ s) acc = splitWSAux s (tok.reverse ++ acc) := by
  induction tok generalizing acc with
  | nil => simp
  | cons c rest ih =>
      have hc : ¬ isWS c := h c (List.mem_cons_self ..)
      rw [List.cons_append, splitWSAux, if_neg hc,
        ih (c :: acc) (fun x hx => h x (List.mem_cons_of_mem _ hx))]
      simp

theorem splitWS_join {toks : List (List Char)} (h : ∀ t ∈ toks, TokenLike t) :
    splitWS (joinWS toks) = toks := by
  induction toks with
  | nil => rfl
  | cons t rest ih =>
      obtain ⟨hne, hwsfree⟩ := h t (List.mem_cons_self ..)
      cases rest with
      | nil =>
          show splitWSAux t [] = [t]
          have := @splitWSAux_token t [] [] hwsfree
          simp only [List.append_nil] at this
          rw [this]
          simp [splitWSAux, List.isEmpty_iff, hne]
      | cons u rest' =>
          show splitWSAux (t ++ ' ' :: joinWS (u :: rest')) [] = t :: u :: rest'
          rw [splitWSAux_token _ _ hwsfree]
          have hsp : isWS ' ' := by decide
          have hacc : (t.reverse ++ ([] : List Char)).isEmpty = false := by
            simp [List.isEmpty_iff, hne]
          simp only [splitWSAux, hsp, if_pos, hacc, Bool.false_eq_true, if_neg,
            ite_false]
          have := ih (fun x hx => h x (List.mem_cons_of_mem _ hx))
          simp only [splitWS] at this
          simp [this, hne]

theorem mem_takeWhile_ws {s : List Char} {c : Char}
    (h : c ∈ s.takeWhile isWS) : isWS c := by
  induction s with
  | nil => simp [List.takeWhile] at h
  | cons a rest ih =>
      rw [List.takeWhile_cons] at h
      by_cases ha : isWS a
      · simp [ha] at h
        rcases h with h | h
        · exact h ▸ ha
        · exact ih h
      · simp [ha] at h

theorem leadingWS_all_ws {s : List Char} : ∀ c ∈ leadingWS s, isWS c :=
  fun _ hc => mem_takeWhile_ws hc

theorem trailingWS_all_ws {s : List Char} : ∀ c ∈ trailingWS s, isWS c := by
  intro c hc
  rw [trailingWS, List.mem_reverse] at hc
  exact mem_takeWhile_ws hc

/-- Splitting on whitespace ignores surrounding whitespace: the trimmed string
has the same tokens as the original. -/
theorem splitWS_trim (s : List Char) : splitWS (trimChars s) = splitWS s := by
  have hdecomp : s = s.takeWhile isWS ++ s.dropWhile isWS :=
    (List.takeWhile_append_dropWhile ..).symm
  set d := s.dropWhile isWS with hd
  have hdd : d = trimChars s ++ (d.reverse.takeWhile isWS).reverse := by
    rw [trimChars, ← hd]
    rw [← List.reverse_append, List.takeWhile_append_dropWhile, List.reverse_reverse]
  calc splitWS (trimChars s)
      = splitWS (trimChars s ++ (d.reverse.takeWhile isWS).reverse) := by
        rw [splitWS, splitWS]
        exact (splitWSAux_append_ws _ _
          (fun c hc => mem_takeWhile_ws (List.mem_reverse.mp hc))).symm
    _ = splitWS d := by rw [← hdd]
    _ = splitWS (s.takeWhile isWS ++ d) := by
        rw [splitWS, splitWS, splitWSAux_ws_prefix _ (fun c hc => mem_takeWhile_ws hc)]
    _ = splitWS s := by rw [← hdecomp]

theorem splitWSAux_ne_nil_of_acc {l acc : List Char} (h : acc ≠ []) :
    splitWSAux l acc ≠ [] := by
  induction l generalizing acc with
  | nil => simp [splitWSAux, List.isEmpty_iff, h]
  | cons c rest ih =>
      by_cases hc : isWS c
      · simp [splitWSAux, hc, List.isEmpty_iff, h]
      · simp only [splitWSAux, hc, Bool.false_eq_true, if_neg, ite_false]
        exact ih (by simp)

theorem splitWS_ne_nil {l : List Char} (c : Char) (hc : c ∈ l) (hws : ¬ isWS c) :
    splitWS l ≠ [] := by
  rw [splitWS]
  induction l with
  | nil => simp at hc
  | cons a rest ih =>
      by_cases ha : isWS a
      · have hcr : c ∈ rest := by
          rcases List.mem_cons.mp hc with h | h
          · exact absurd (h ▸ ha) hws
          · exact h
        simp only [splitWSAux, ha, if_pos, List.isEmpty_nil, ite_true]
        exact ih hcr
      · simp only [splitWSAux, ha, Bool.false_eq_true, if_neg, ite_false]
        exact splitWSAux_ne_nil_of_acc (by simp)

theorem joinWS_head {toks : List (List Char)} (hne : toks ≠ [])
    (h : ∀ t ∈ toks, TokenLike t) :
    ∃ c m, joinWS toks = c :: m ∧ ¬ isWS c := by
  cases toks with
  | nil => exact absurd rfl hne
  | cons t rest =>
      obtain ⟨htne, hwsfree⟩ := h t (List.mem_cons_self ..)
      obtain ⟨c, t', ht⟩ := List.exists_cons_of_ne_nil htne
      have hc : ¬ isWS c := hwsfree c (ht ▸ List.mem_cons_self ..)
      cases rest with
      | nil => exact ⟨c, t', by simp [joinWS, ht], hc⟩
      | cons u rest' =>
          exact ⟨c, t' ++ ' ' :: joinWS (u :: rest'), by simp [joinWS, ht], hc⟩

theorem joinWS_last {toks : List (List Char)} (hne : toks ≠ [])
    (h : ∀ t ∈ toks, TokenLike t) :
    ∃ c m, (joinWS toks).reverse = c :: m ∧ ¬ isWS c := by
  induction toks with
  | nil => exact absurd rfl hne
  | cons t rest ih =>
      obtain ⟨htne, hwsfree⟩ := h t (List.mem_cons_self ..)
      cases rest with
      | nil =>
          obtain ⟨c, t', ht⟩ := List.exists_cons_of_ne_nil
            (by simpa using List.reverse_eq_nil_iff.not.mpr htne :
              t.reverse ≠ [])
          have hc : ¬ isWS c :=
            hwsfree c (List.mem_reverse.mp (ht ▸ List.mem_cons_self ..))
          exact ⟨c, t', by simp [joinWS, ht], hc⟩
      | cons u rest' =>
          obtain ⟨c, m, hm, hc⟩ := ih (by simp)
            (fun x hx => h x (List.mem_cons_of_mem _ hx))
          refine ⟨c, m ++ ' ' :: t.reverse, ?_, hc⟩
          show (t ++ ' ' :: joinWS (u :: rest')).reverse = _
          rw [List.reverse_append, List.reverse_cons, hm]
          simp

theorem dropWhile_head_not {p : Char → Bool} {l : List Char}
    (h : l.dropWhile p ≠ []) : ∃ c m, l.dropWhile p = c :: m ∧ ¬ p c := by
  induction l with
  | nil => simp at h
  | cons a rest ih =>
      rw [List.dropWhile_cons] at h ⊢
      by_cases ha : p a
      · simp only [ha, if_pos] at h ⊢
        exact ih h
      · exact ⟨a, rest, by simp [ha], ha⟩

/-- A non-empty trimmed string contains a non-whitespace character. -/
theorem trimChars_has_content {s : List Char} (h : trimChars s ≠ []) :
    ∃ c ∈ trimChars s, ¬ isWS c := by
  rw [trimChars] at h ⊢
  have hne : (s.dropWhile isWS).reverse.dropWhile isWS ≠ [] := by
    intro he; rw [he] at h; exact h rfl
  obtain ⟨c, m, hm, hc⟩ := dropWhile_head_not hne
  exact ⟨c, by rw [hm]; simp, hc⟩

/-- With a per-token oracle, the rewritten string of a non-trivial input is the
preserved leading whitespace, the rewritten tokens joined by single spaces, and
the preserved trailing whitespace. -/
theorem pwf_eq (f : Bool → List Char → List Char) (s : List Char) (b : Bool)
    (hemp : ¬ (trimChars s).isEmpty) :
    process_with_fallback (traceModel f) s b
      = leadingWS s ++ joinWS ((splitWS (trimChars s)).map (f b)) ++ trailingWS s := by
  simp only [process_with_fallback, traceModel, hemp, Bool.false_eq_true, if_neg,
    ite_false]

/-- C1: with the spec-modelled per-token oracle, `process_with_fallback`
produces exactly the positional per-token rewrites of the input: the token
count and order are preserved, and no token is combined or dropped. -/
theorem C1_token_count (f : Bool → List Char → List Char)
    (h : ∀ b t, TokenLike (f b t)) (s : List Char) (obfuscate : Bool) :
    splitWS (process_with_fallback (traceModel f) s obfuscate)
      = (splitWS s).map (f obfuscate) := by
  by_cases hemp : (trimChars s).isEmpty
  · have h0 : splitWS s = [] := by
      rw [← splitWS_trim s, List.isEmpty_iff.mp hemp]; rfl
    simp only [process_with_fallback, hemp, if_pos, ite_true, h0, List.map_nil]
  · rw [pwf_eq f s obfuscate hemp]
    have htoks : ∀ t ∈ (splitWS (trimChars s)).map (f obfuscate), TokenLike t := by
      intro t ht
      obtain ⟨u, _, rfl⟩ := List.mem_map.mp ht
      exact h obfuscate u
    rw [List.append_assoc, splitWS, splitWSAux_ws_prefix _ leadingWS_all_ws,
        splitWSAux_append_ws _ _ trailingWS_all_ws]
    have hj := splitWS_join htoks
    rw [splitWS] at hj
    rw [hj, splitWS_trim]

/-- C1 witness: a concrete run with a constant per-token oracle on a two-token
class string with irregular whitespace. -/
theorem C1_token_count_witness :
    splitWS (process_with_fallback (traceModel (fun _ _ => ['x']))
        " p-4  bg-blue-500 ".data true)
      = (splitWS " p-4  bg-blue-500 ".data).map ((fun _ _ => ['x']) true) :=
  C1_token_count (fun _ _ => ['x'])
    (fun _ t => ⟨List.cons_ne_nil _ _, by
      intro c hc
      have : c = 'x' := by simpa using hc
      subst this; decide⟩)
    " p-4  bg-blue-500 ".data true

/-- C2: with the spec-modelled per-token oracle, `process_with_fallback`
preserves the input's exact leading and trailing whitespace runs, and returns
any whitespace-only input unchanged byte-for-byte. -/
theorem C2_whitespace (f : Bool → List Char → List Char)
    (h : ∀ b t, TokenLike (f b t)) (s : List Char) (obfuscate : Bool) :
    leadingWS (process_with_fallback (traceModel f) s obfuscate) = leadingWS s ∧
    trailingWS (process_with_fallback (traceModel f) s obfuscate) = trailingWS s ∧
    (trimChars s = [] → process_with_fallback (traceModel f) s obfuscate = s) := by
  by_cases hemp : (trimChars s).isEmpty
  · have hid : process_with_fallback (traceModel f) s obfuscate = s := by
      simp only [process_with_fallback, hemp, if_pos, ite_true]
    exact ⟨by rw [hid], by rw [hid], fun _ => hid⟩
  · have hne : trimChars s ≠ [] := fun he => hemp (by simp [he])
    obtain ⟨c0, hc0mem, hc0⟩ := trimChars_has_content hne
    have hsne : splitWS (trimChars s) ≠ [] := splitWS_ne_nil c0 hc0mem hc0
    set toks := (splitWS (trimChars s)).map (f obfuscate) with htoksdef
    have htoksne : toks ≠ [] := by
      rw [htoksdef]
      exact fun he => hsne (List.map_eq_nil_iff.mp he)
    have htoks : ∀ t ∈ toks, TokenLike t := by
      intro t ht
      obtain ⟨u, _, rfl⟩ := List.mem_map.mp ht
      exact h obfuscate u
    rw [pwf_eq f s obfuscate hemp]
    obtain ⟨ch, mh, hmh, hchws⟩ := joinWS_head htoksne htoks
    obtain ⟨cl, ml, hml, hclws⟩ := joinWS_last htoksne htoks
    refine ⟨?_, ?_, fun he => absurd (by simp [he]) hemp⟩
    · show (leadingWS s ++ joinWS toks ++ trailingWS s).takeWhile isWS = _
      rw [List.append_assoc, List.takeWhile_append_of_pos leadingWS_all_ws,
        hmh, List.cons_append, List.takeWhile_cons]
      simp [hchws, leadingWS]
    · show ((leadingWS s ++ joinWS toks ++ trailingWS s).reverse.takeWhile
        isWS).reverse = _
      rw [List.append_assoc, List.reverse_append, List.reverse_append, hml]
      have htr : (trailingWS s).reverse = s.reverse.takeWhile isWS := by
        rw [trailingWS, List.reverse_reverse]
      have hrevws : ∀ c ∈ s.reverse.takeWhile isWS, isWS c :=
        fun _ hc => mem_takeWhile_ws hc
      rw [htr, List.append_assoc, List.takeWhile_append_of_pos hrevws,
        List.cons_append, List.takeWhile_cons]
      simp [hclws, trailingWS]

/-- C2 witness: a concrete run on an input framed by a tab, spaces and a
newline; the frame survives, and a whitespace-only input round-trips. -/
theorem C2_whitespace_witness :
    leadingWS (process_with_fallback (traceModel (fun _ t => 'x' :: t.take 0))
        "\t p-4 \n".data false) = leadingWS "\t p-4 \n".data ∧
    trailingWS (process_with_fallback (traceModel (fun _ t => 'x' :: t.take 0))
        "\t p-4 \n".data false) = trailingWS "\t p-4 \n".data ∧
    (trimChars "\t p-4 \n".data = [] →
      process_with_fallback (traceModel (fun _ t => 'x' :: t.take 0))
        "\t p-4 \n".data false = "\t p-4 \n".data) :=
  C2_whitespace (fun _ t => 'x' :: t.take 0)
    (fun _ t => ⟨List.cons_ne_nil _ _, by
      intro c hc
      have : c = 'x' := by simpa using hc
      subst this; decide⟩)
    "\t p-4 \n".data false

/-- Traversal contexts (src/ast_mutator.rs, `AstContext`). -/
inductive AstContext
  | JsxClassAttribute
  | ClassNameProperty
  | WhitelistedFunction (name : String)
  | TrackedVariable (name : String)
  | ConditionalExpression
  | TemplateLiteral
  | General
deriving DecidableEq

/-- `ContextStack::is_in_class_context` (src/ast_mutator.rs, lines 61-72). -/
def is_in_class_context (stack : List AstContext) : Bool :=
  stack.any fun ctx =>
    match ctx with
    | .JsxClassAttribute => true
    | .ClassNameProperty => true
    | .WhitelistedFunction _ => true
    | .TrackedVariable _ => true
    | _ => false

/-- Length pre-filter of `looks_like_classes`: "Skip if empty or too short". -/
def tooShort (value : List Char) : Bool := value.length < 2

/-- URL/path pre-filter of `looks_like_classes`. -/
def urlOrPath (value : List Char) : Bool :=
  startsWithL "http://".data value || startsWithL "https://".data value
    || startsWithL "/".data value || startsWithL "./".data value
    || startsWithL "../".data value || value.contains '\\'

/-- Sentence-punctuation pre-filter of `looks_like_classes` (note the Rust
precedence: the `&&`-chain on `'.'` binds tighter than the `||`s). -/
def sentencePunct (value : List Char) : Bool :=
  (value.contains '.' && !(hasSub "0.".data value) && !(hasSub "1.".data value))
    || value.contains '!' || value.contains '?' || value.contains ','

/-- `has_tailwind_patterns` in `looks_like_classes`. -/
def hasClassMarker (value : List Char) : Bool :=
  value.contains '-' || value.contains ':'
    || value.contains '[' || value.contains ']'

/-- `valid_chars` in `looks_like_classes` (ASCII alphanumeric or one of the
listed class-name characters or whitespace). -/
def validClassChars (value : List Char) : Bool :=
  value.all fun c =>
    c.isAlphanum || c == '-' || c == '_' || c == ':'
      || c == '[' || c == ']' || c == '(' || c == ')' || c == '/'
      || c == '#' || c == '%' || c == '.' || c.isWhitespace

/-- One token of the strict out-of-context check "looks like a Tailwind
class". -/
def tailwindLikeToken (token : List Char) : Bool :=
  token.contains '-' || token.contains ':'
    || startsWithL "bg-".data token || startsWithL "text-".data token
    || startsWithL "p-".data token || startsWithL "m-".data token
    || startsWithL "flex".data token || startsWithL "grid".data token
    || startsWithL "hover:".data token || startsWithL "focus:".data token
    || startsWithL "md:".data token || startsWithL "lg:".data token

/-- `TailwindAstMutator::looks_like_classes` (src/ast_mutator.rs, lines
148-216), with the context stack passed explicitly. -/
def looks_like_classes (stack : List AstContext) (value : List Char) : Bool :=
  if tooShort value then false
  else if urlOrPath value then false
  else if sentencePunct value then false
  else
    if is_in_class_context stack then
      validClassChars value && (hasClassMarker value || value.contains ' ')
    else if !validClassChars value then false
    else if hasClassMarker value then
      (splitWS value).any tailwindLikeToken
    else if value.contains ' ' then
      let tokens := splitWS value
      decide (tokens.length ≥ 2) &&
        tokens.any fun token => token.contains '-' || decide (token.length > 3)
    else false

/-- C3 (amended): the classifier meets all four boundary cases from the spec,
and inside a class-bearing context it accepts exactly the strings that survive
the length, URL/path and sentence-punctuation pre-filters, consist of valid
class characters, and carry a class-pattern marker or a space. -/
theorem C3_classifier_boundaries :
    looks_like_classes [.General] "https://example.com".data = false ∧
    looks_like_classes [.General] "p-4 bg-blue-500".data = true ∧
    looks_like_classes [.General] "mycustomclass".data = false ∧
    looks_like_classes [.General, .JsxClassAttribute] "mycustomclass".data = false ∧
    looks_like_classes [.General, .JsxClassAttribute] "simple words here".data = true ∧
    ∀ (stack : List AstContext) (value : List Char),
      is_in_class_context stack = true →
      looks_like_classes stack value =
        (!tooShort value && !urlOrPath value && !sentencePunct value &&
         validClassChars value && (hasClassMarker value || value.contains ' ')) := by
  refine ⟨by decide, by decide, by decide, by decide, by decide, ?_⟩
  intro stack value hctx
  rw [looks_like_classes]
  by_cases h1 : tooShort value
  · simp [h1]
  · by_cases h2 : urlOrPath value
    · simp [h1, h2]
    · by_cases h3 : sentencePunct value
      · simp [h1, h2, h3]
      · simp [h1, h2, h3, hctx]

/-- C3 witness: the in-context characterization applied at a concrete stack
and value. -/
theorem C3_classifier_boundaries_witness :
    looks_like_classes [AstContext.General, AstContext.JsxClassAttribute]
        "shadow box".data =
      (!tooShort "shadow box".data && !urlOrPath "shadow box".data &&
       !sentencePunct "shadow box".data && validClassChars "shadow box".data &&
       (hasClassMarker "shadow box".data || "shadow box".data.contains ' ')) :=
  C3_classifier_boundaries.2.2.2.2.2
    [AstContext.General, AstContext.JsxClassAttribute] "shadow box".data
    (by decide)

/-- C3 counterexample to the claim as stated: `"a.b-c"` consists only of valid
class characters and has a class-pattern marker, and the stack is a
class-bearing context, yet the classifier rejects it (the sentence-punctuation
pre-filter still applies inside class contexts). -/
theorem C3_classifier_counterexample :
    looks_like_classes [AstContext.General, AstContext.JsxClassAttribute]
        "a.b-c".data = false ∧
    validClassChars "a.b-c".data = true ∧
    hasClassMarker "a.b-c".data = true ∧
    is_in_class_context [AstContext.General, AstContext.JsxClassAttribute] = true := by
  decide

/-- `ExtractedString` (src/ast_visitor.rs, lines 12-22). -/
structure ExtractedString where
  value : String
  file_path : String
  line : Nat
  column : Nat
deriving DecidableEq

/-- The deduplication key used in `extract_strings_parallel_with_progress`
(src/lib.rs, lines 518-521): `(value, file, line, column)`. -/
def dedupKey (e : ExtractedString) : String × String × Nat × Nat :=
  (e.value, e.file_path, e.line, e.column)

/-- The `seen`-set filtering loop of `extract_strings_parallel_with_progress`
(src/lib.rs, lines 512-527), with the hash set carried as a list of keys. -/
def dedupAux : List ExtractedString → List (String × String × Nat × Nat) →
    List ExtractedString
  | [], _ => []
  | e :: rest, seen =>
      if dedupKey e ∈ seen then dedupAux rest seen
      else e :: dedupAux rest (dedupKey e :: seen)

/-- Collapse raw token events that share `(value, file, line, column)`. -/
def dedupExtracted (l : List ExtractedString) : List ExtractedString :=
  dedupAux l []

/-- `ClassInfo` (src/extractor.rs, lines 19-32). -/
structure ClassInfo where
  original : String
  obfuscated : Option String
  count : Nat
  files : List String
deriving DecidableEq

/-- `TailwindExtractor::is_valid_class` (src/extractor.rs, lines 225-243).
Rust's `str::len` is the UTF-8 byte length; `'\x7b'`/`'\x7d'` are the brace
characters. -/
def is_valid_class (c : String) : Bool :=
  if c.utf8ByteSize > 100 then false
  else if c.data.contains '<' || c.data.contains '>'
      || c.data.contains (Char.ofNat 123) || c.data.contains (Char.ofNat 125)
      || c.data.contains ';' then false
  else c.data.all fun ch => ch.isAlphanum || "-:/.[]!()#%&*_@".data.contains ch

/-- The entry mutation of `TailwindExtractor::add_class` (src/extractor.rs,
lines 117-120): bump the count, insert the file if absent. -/
def addClassEntry (info : ClassInfo) (file_path : String) : ClassInfo :=
  { info with
    count := info.count + 1
    files := if info.files.contains file_path then info.files
             else info.files ++ [file_path] }

/-- The `or_insert_with` default of `add_class` (src/extractor.rs, lines
108-115). -/
def emptyInfo (class_name : String) : ClassInfo :=
  ⟨class_name, none, 0, []⟩

/-- The `classes` index map of `TailwindExtractor`, as an insertion-ordered
association list; `entry(..).or_insert_with(..)` plus mutation. -/
def updateRegistry : List (String × ClassInfo) → String → String →
    List (String × ClassInfo)
  | [], class_name, file_path =>
      [(class_name, addClassEntry (emptyInfo class_name) file_path)]
  | (k, i) :: rest, class_name, file_path =>
      if k = class_name then (k, addClassEntry i file_path) :: rest
      else (k, i) :: updateRegistry rest class_name file_path

/-- `TailwindExtractor::add_class` (src/extractor.rs, lines 89-123).  The
external `TailwindBuilder::trace` validity check is the parameter `traceOk`
(the source only tests `is_ok()`). -/
def add_class (traceOk : String → Bool) (reg : List (String × ClassInfo))
    (class_name file_path : String) : List (String × ClassInfo) :=
  if class_name = "" || !is_valid_class class_name then reg
  else if !traceOk class_name then reg
  else updateRegistry reg class_name file_path

/-- `TailwindExtractor::add_classes` (src/extractor.rs, lines 126-131). -/
def add_classes (traceOk : String → Bool) (reg : List (String × ClassInfo))
    (classes : List String) (file_path : String) : List (String × ClassInfo) :=
  classes.foldl (fun r c => add_class traceOk r c file_path) reg

/-- One insertion into the per-file grouping map of `extract` (src/lib.rs,
lines 208-214). -/
def insertGroup : List (String × List String) → String → String →
    List (String × List String)
  | [], f, v => [(f, [v])]
  | (k, vs) :: rest, f, v =>
      if k = f then (k, vs ++ [v]) :: rest
      else (k, vs) :: insertGroup rest f v

/-- The per-file grouping map `file_classes` of `extract` (src/lib.rs, lines
208-214).  The Rust `HashMap` iterates in an unspecified order; here it is
concretized to first-seen file order. -/
def groupByFile (events : List ExtractedString) : List (String × List String) :=
  events.foldl (fun acc e => insertGroup acc e.file_path e.value) []

/-- The merge loop of `extract` (src/lib.rs, lines 217-219): fold
`add_classes` over the per-file groups. -/
def mergeGroups (traceOk : String → Bool)
    (groups : List (String × List String)) : List (String × ClassInfo) :=
  groups.foldl (fun reg g => add_classes traceOk reg g.2 g.1) []

/-- The registry produced for a list of raw token events: dedup, group by
file, merge (src/lib.rs, lines 512-527 and 208-219). -/
def registryOfEvents (traceOk : String → Bool)
    (events : List ExtractedString) : List (String × ClassInfo) :=
  mergeGroups traceOk (groupByFile (dedupExtracted events))

/-- Registry lookup (`IndexMap::get`). -/
def lookupInfo (reg : List (String × ClassInfo)) (class_name : String) :
    Option ClassInfo :=
  match reg.find? (fun p => p.1 == class_name) with
  | some p => some p.2
  | none => none

/-- The `count` recorded for a class (0 when absent). -/
def countOf (reg : List (String × ClassInfo)) (class_name : String) : Nat :=
  (lookupInfo reg class_name).elim 0 ClassInfo.count

/-- The `files` recorded for a class ([] when absent). -/
def filesOf (reg : List (String × ClassInfo)) (class_name : String) :
    List String :=
  (lookupInfo reg class_name).elim [] ClassInfo.files

theorem dedupAux_spec (l : List ExtractedString) :
    ∀ seen, ((dedupAux l seen).map dedupKey).Nodup ∧
      ∀ e ∈ dedupAux l seen, e ∈ l ∧ dedupKey e ∉ seen := by
  induction l with
  | nil => exact fun seen => ⟨List.nodup_nil, by simp [dedupAux]⟩
  | cons e rest ih =>
      intro seen
      by_cases hmem : dedupKey e ∈ seen
      · rw [dedupAux, if_pos hmem]
        obtain ⟨h1, h2⟩ := ih seen
        exact ⟨h1, fun x hx =>
          ⟨List.mem_cons_of_mem _ (h2 x hx).1, (h2 x hx).2⟩⟩
      · rw [dedupAux, if_neg hmem]
        obtain ⟨h1, h2⟩ := ih (dedupKey e :: seen)
        refine ⟨?_, ?_⟩
        · rw [List.map_cons, List.nodup_cons]
          refine ⟨?_, h1⟩
          intro hk
          obtain ⟨x, hx, hkey⟩ := List.mem_map.mp hk
          exact (h2 x hx).2 (hkey ▸ List.mem_cons_self ..)
        · intro x hx
          rcases List.mem_cons.mp hx with h | h
          · subst h; exact ⟨List.mem_cons_self .., hmem⟩
          · exact ⟨List.mem_cons_of_mem _ (h2 x h).1,
              fun hc => (h2 x h).2 (List.mem_cons_of_mem _ hc)⟩

/-- The two-file scenario of the dedup-correctness property: each file holds
`"flex"` at three distinct source locations and `"p-4"` at one. -/
def scenarioEvents : List ExtractedString :=
  [⟨"flex", "a.js", 1, 0⟩, ⟨"flex", "a.js", 2, 4⟩, ⟨"flex", "a.js", 3, 8⟩,
   ⟨"p-4", "a.js", 4, 0⟩,
   ⟨"flex", "b.js", 1, 2⟩, ⟨"flex", "b.js", 5, 0⟩, ⟨"flex", "b.js", 6, 1⟩,
   ⟨"p-4", "b.js", 2, 3⟩]

/-- C4: for the two-file scenario the merged registry has exactly 2 entries,
`flex.count = 6`, `p-4.count = 2`, and each entry lists both files exactly
once; a raw token event repeated at the same `(value, file, line, column)` is
collapsed to one occurrence; and in general the dedup pass leaves no duplicate
keys and invents no events. -/
theorem C4_dedup_correctness :
    ((registryOfEvents (fun _ => true) scenarioEvents).length = 2 ∧
     countOf (registryOfEvents (fun _ => true) scenarioEvents) "flex" = 6 ∧
     countOf (registryOfEvents (fun _ => true) scenarioEvents) "p-4" = 2 ∧
     filesOf (registryOfEvents (fun _ => true) scenarioEvents) "flex"
       = ["a.js", "b.js"] ∧
     filesOf (registryOfEvents (fun _ => true) scenarioEvents) "p-4"
       = ["a.js", "b.js"]) ∧
    dedupExtracted [⟨"flex", "a.js", 1, 0⟩, ⟨"flex", "a.js", 1, 0⟩]
      = [⟨"flex", "a.js", 1, 0⟩] ∧
    ∀ l : List ExtractedString,
      ((dedupExtracted l).map dedupKey).Nodup ∧
      ∀ e ∈ dedupExtracted l, e ∈ l := by
  refine ⟨by decide, by decide, fun l => ?_⟩
  obtain ⟨h1, h2⟩ := dedupAux_spec l []
  exact ⟨h1, fun e he => (h2 e he).1⟩

/-- Flatten per-file groups into `(file, class)` events, in merge order. -/
def groupEvents : List (String × List String) → List (String × String)
  | [] => []
  | (f, cs) :: rest => cs.map (fun c => (f, c)) ++ groupEvents rest

/-- Fold `add_class` over `(file, class)` events. -/
def addEvents (traceOk : String → Bool) (reg : List (String × ClassInfo))
    (evs : List (String × String)) : List (String × ClassInfo) :=
  evs.foldl (fun r e => add_class traceOk r e.2 e.1) reg

/-- An event survives the guards of `add_class`: non-empty, valid and traced
successfully. -/
def acceptedEvent (traceOk : String → Bool) (e : String × String) : Bool :=
  !(e.2 == "") && is_valid_class e.2 && traceOk e.2

theorem addEvents_append (traceOk : String → Bool)
    (reg : List (String × ClassInfo)) (a b : List (String × String)) :
    addEvents traceOk reg (a ++ b)
      = addEvents traceOk (addEvents traceOk reg a) b := by
  simp [addEvents, List.foldl_append]

theorem add_classes_eq_addEvents (traceOk : String → Bool)
    (reg : List (String × ClassInfo)) (cs : List String) (f : String) :
    add_classes traceOk reg cs f
      = addEvents traceOk reg (cs.map fun c => (f, c)) := by
  simp [add_classes, addEvents, List.foldl_map]

theorem mergeGroups_foldl_eq (traceOk : String → Bool)
    (gs : List (String × List String)) :
    ∀ reg, gs.foldl (fun reg g => add_classes traceOk reg g.2 g.1) reg
      = addEvents traceOk reg (groupEvents gs) := by
  induction gs with
  | nil => intro reg; rfl
  | cons g rest ih =>
      intro reg
      obtain ⟨f, cs⟩ := g
      rw [List.foldl_cons]
      rw [ih (add_classes traceOk reg cs f), add_classes_eq_addEvents]
      rw [show groupEvents ((f, cs) :: rest)
          = (cs.map fun c => (f, c)) ++ groupEvents rest from rfl]
      rw [addEvents_append]

theorem mergeGroups_eq (traceOk : String → Bool)
    (gs : List (String × List String)) :
    mergeGroups traceOk gs = addEvents traceOk [] (groupEvents gs) :=
  mergeGroups_foldl_eq traceOk gs []

theorem countOf_cons (k : String) (i : ClassInfo)
    (rest : List (String × ClassInfo)) (c : String) :
    countOf ((k, i) :: rest) c = if k = c then i.count else countOf rest c := by
  by_cases h : k = c
  · simp [countOf, lookupInfo, List.find?, h]
  · have hb : (k == c) = false := by simp [h]
    simp [countOf, lookupInfo, List.find?, h, hb]

theorem filesOf_cons (k : String) (i : ClassInfo)
    (rest : List (String × ClassInfo)) (c : String) :
    filesOf ((k, i) :: rest) c = if k = c then i.files else filesOf rest c := by
  by_cases h : k = c
  · simp [filesOf, lookupInfo, List.find?, h]
  · have hb : (k == c) = false := by simp [h]
    simp [filesOf, lookupInfo, List.find?, h, hb]

theorem countOf_nil (c : String) : countOf [] c = 0 := rfl

theorem countOf_updateRegistry_same (reg : List (String × ClassInfo))
    (c f : String) :
    countOf (updateRegistry reg c f) c = countOf reg c + 1 := by
  induction reg with
  | nil => simp [updateRegistry, countOf_cons, addClassEntry, emptyInfo, countOf_nil]
  | cons p rest ih =>
      obtain ⟨k, i⟩ := p
      by_cases h : k = c
      · rw [updateRegistry, if_pos h, countOf_cons, if_pos h, countOf_cons,
          if_pos h, addClassEntry]
      · rw [updateRegistry, if_neg h, countOf_cons, if_neg h, countOf_cons,
          if_neg h, ih]

theorem countOf_updateRegistry_other (reg : List (String × ClassInfo))
    {cls c : String} (f : String) (h : cls ≠ c) :
    countOf (updateRegistry reg cls f) c = countOf reg c := by
  induction reg with
  | nil => simp [updateRegistry, countOf_cons, h, countOf_nil]
  | cons p rest ih =>
      obtain ⟨k, i⟩ := p
      by_cases hk : k = cls
      · subst hk
        rw [updateRegistry, if_pos rfl, countOf_cons, if_neg h, countOf_cons,
          if_neg h]
      · rw [updateRegistry, if_neg hk, countOf_cons, countOf_cons, ih]

theorem countOf_add_class (traceOk : String → Bool)
    (reg : List (String × ClassInfo)) (cls f c : String) :
    countOf (add_class traceOk reg cls f) c
      = countOf reg c
        + (if acceptedEvent traceOk (f, cls) ∧ cls = c then 1 else 0) := by
  rw [add_class]
  by_cases h1 : cls = "" ∨ is_valid_class cls = false
  · have hna : acceptedEvent traceOk (f, cls) = false := by
      rcases h1 with h | h <;> simp [acceptedEvent, h]
    have : (cls = "" || !is_valid_class cls) = true := by
      rcases h1 with h | h <;> simp [h]
    rw [if_pos this]
    simp [hna]
  · push_neg at h1
    have hv : is_valid_class cls = true := by
      cases hvv : is_valid_class cls
      · exact absurd hvv h1.2
      · rfl
    have : (cls = "" || !is_valid_class cls) = false := by
      simp [h1.1, hv]
    rw [if_neg (by simp [this])]
    by_cases h2 : traceOk cls
    · have ha : acceptedEvent traceOk (f, cls) = true := by
        simp [acceptedEvent, h1.1, hv, h2]
      rw [if_neg (by simp [h2])]
      by_cases hc : cls = c
      · subst hc
        rw [countOf_updateRegistry_same]
        simp [ha]
      · rw [countOf_updateRegistry_other reg f hc]
        simp [hc]
    · have hna : acceptedEvent traceOk (f, cls) = false := by
        simp [acceptedEvent, h2]
      rw [if_pos (by simpa using h2)]
      simp [hna]

/-- An event has class `c` and survives the `add_class` guards. -/
def hitsClass (traceOk : String → Bool) (c : String) (e : String × String) :
    Bool :=
  acceptedEvent traceOk e && (e.2 == c)

theorem hitsClass_iff (traceOk : String → Bool) (c : String)
    (e : String × String) :
    hitsClass traceOk c e = true
      ↔ (acceptedEvent traceOk (e.1, e.2) = true ∧ e.2 = c) := by
  simp [hitsClass]

theorem countOf_addEvents (traceOk : String → Bool) (c : String)
    (evs : List (String × String)) :
    ∀ reg, countOf (addEvents traceOk reg evs) c
      = countOf reg c + evs.countP (hitsClass traceOk c) := by
  induction evs with
  | nil => intro reg; simp [addEvents]
  | cons e rest ih =>
      intro reg
      rw [show addEvents traceOk reg (e :: rest)
          = addEvents traceOk (add_class traceOk reg e.2 e.1) rest from rfl]
      rw [ih, countOf_add_class, List.countP_cons]
      by_cases h : hitsClass traceOk c e
      · rw [if_pos h, if_pos ((hitsClass_iff traceOk c e).mp h)]
        omega
      · rw [if_neg (fun hc => h ((hitsClass_iff traceOk c e).mpr hc)), if_neg h]
        omega

theorem filesOf_nil (c : String) : filesOf [] c = [] := rfl

theorem mem_filesOf_updateRegistry_same (reg : List (String × ClassInfo))
    (c f x : String) :
    x ∈ filesOf (updateRegistry reg c f) c ↔ x ∈ filesOf reg c ∨ x = f := by
  induction reg with
  | nil =>
      simp [updateRegistry, filesOf_cons, addClassEntry, emptyInfo, filesOf_nil]
  | cons p rest ih =>
      obtain ⟨k, i⟩ := p
      by_cases h : k = c
      · rw [updateRegistry, if_pos h, filesOf_cons, if_pos h, filesOf_cons,
          if_pos h]
        show x ∈ (addClassEntry i f).files ↔ _
        rw [addClassEntry]
        by_cases hf : i.files.contains f
        · simp only [hf, if_pos, ite_true]
          constructor
          · exact fun hx => Or.inl hx
          · rintro (hx | rfl)
            · exact hx
            · exact List.mem_of_elem_eq_true hf
        · show x ∈ (if i.files.contains f = true then i.files
              else i.files ++ [f]) ↔ _
          rw [if_neg hf]
          simp [List.mem_append]
      · rw [updateRegistry, if_neg h, filesOf_cons, if_neg h, filesOf_cons,
          if_neg h]
        exact ih

theorem filesOf_updateRegistry_other (reg : List (String × ClassInfo))
    {cls c : String} (f : String) (h : cls ≠ c) :
    filesOf (updateRegistry reg cls f) c = filesOf reg c := by
  induction reg with
  | nil => simp [updateRegistry, filesOf_cons, h, filesOf_nil]
  | cons p rest ih =>
      obtain ⟨k, i⟩ := p
      by_cases hk : k = cls
      · subst hk
        rw [updateRegistry, if_pos rfl, filesOf_cons, if_neg h, filesOf_cons,
          if_neg h]
      · rw [updateRegistry, if_neg hk, filesOf_cons, filesOf_cons, ih]

theorem mem_filesOf_add_class (traceOk : String → Bool)
    (reg : List (String × ClassInfo)) (cls f c x : String) :
    x ∈ filesOf (add_class traceOk reg cls f) c
      ↔ x ∈ filesOf reg c
        ∨ (acceptedEvent traceOk (f, cls) = true ∧ cls = c ∧ x = f) := by
  rw [add_class]
  by_cases h1 : cls = "" ∨ is_valid_class cls = false
  · have hna : acceptedEvent traceOk (f, cls) = false := by
      rcases h1 with h | h <;> simp [acceptedEvent, h]
    have hb : (cls = "" || !is_valid_class cls) = true := by
      rcases h1 with h | h <;> simp [h]
    rw [if_pos hb]
    simp [hna]
  · push_neg at h1
    have hv : is_valid_class cls = true := by
      cases hvv : is_valid_class cls
      · exact absurd hvv h1.2
      · rfl
    rw [if_neg (by simp [h1.1, hv])]
    by_cases h2 : traceOk cls
    · have ha : acceptedEvent traceOk (f, cls) = true := by
        simp [acceptedEvent, h1.1, hv, h2]
      rw [if_neg (by simp [h2])]
      by_cases hc : cls = c
      · subst hc
        rw [mem_filesOf_updateRegistry_same]
        simp [ha]
      · rw [filesOf_updateRegistry_other reg f hc]
        simp [hc]
    · have hna : acceptedEvent traceOk (f, cls) = false := by
        simp [acceptedEvent, h2]
      rw [if_pos (by simpa using h2)]
      simp [hna]

theorem mem_filesOf_addEvents (traceOk : String → Bool) (c x : String)
    (evs : List (String × String)) :
    ∀ reg, x ∈ filesOf (addEvents traceOk reg evs) c
      ↔ x ∈ filesOf reg c
        ∨ ∃ e ∈ evs, acceptedEvent traceOk e = true ∧ e.2 = c ∧ e.1 = x := by
  induction evs with
  | nil => intro reg; simp [addEvents]
  | cons e rest ih =>
      intro reg
      rw [show addEvents traceOk reg (e :: rest)
          = addEvents traceOk (add_class traceOk reg e.2 e.1) rest from rfl]
      rw [ih, mem_filesOf_add_class]
      simp only [Prod.mk.eta, List.mem_cons]
      constructor
      · rintro ((hx | ⟨ha, hc, hf⟩) | ⟨e', he', he'2⟩)
        · exact Or.inl hx
        · exact Or.inr ⟨e, Or.inl rfl, ha, hc, hf.symm⟩
        · exact Or.inr ⟨e', Or.inr he', he'2⟩
      · rintro (hx | ⟨e', (rfl | he'), ha, hc, hf⟩)
        · exact Or.inl (Or.inl hx)
        · exact Or.inl (Or.inr ⟨ha, hc, hf.symm⟩)
        · exact Or.inr ⟨e', he', ha, hc, hf⟩

theorem groupEvents_perm {gs1 gs2 : List (String × List String)}
    (h : gs1.Perm gs2) : (groupEvents gs1).Perm (groupEvents gs2) := by
  induction h with
  | nil => exact List.Perm.refl _
  | cons x _ ih =>
      obtain ⟨f, cs⟩ := x
      exact ih.append_left _
  | swap x y l =>
      obtain ⟨fx, csx⟩ := x
      obtain ⟨fy, csy⟩ := y
      show ((csy.map fun c => (fy, c)) ++ ((csx.map fun c => (fx, c))
          ++ groupEvents l)).Perm
        ((csx.map fun c => (fx, c)) ++ ((csy.map fun c => (fy, c))
          ++ groupEvents l))
      exact List.perm_append_comm_assoc ..
  | trans _ _ ih1 ih2 => exact ih1.trans ih2

/-- C9: merging per-file results into the registry is order-independent: for
any permutation of the per-file groups, every class's `count` and the set of
`files` recorded for it are unchanged. -/
theorem C9_merge_order_independent (traceOk : String → Bool)
    {groups1 groups2 : List (String × List String)}
    (hperm : groups1.Perm groups2) (c : String) :
    countOf (mergeGroups traceOk groups1) c
      = countOf (mergeGroups traceOk groups2) c ∧
    ∀ f, f ∈ filesOf (mergeGroups traceOk groups1) c
      ↔ f ∈ filesOf (mergeGroups traceOk groups2) c := by
  have hp := groupEvents_perm hperm
  constructor
  · rw [mergeGroups_eq, mergeGroups_eq, countOf_addEvents, countOf_addEvents,
      hp.countP_eq]
  · intro f
    rw [mergeGroups_eq, mergeGroups_eq, mem_filesOf_addEvents,
      mem_filesOf_addEvents]
    constructor
    · rintro (hx | ⟨e, he, hrest⟩)
      · exact Or.inl hx
      · exact Or.inr ⟨e, hp.mem_iff.mp he, hrest⟩
    · rintro (hx | ⟨e, he, hrest⟩)
      · exact Or.inl hx
      · exact Or.inr ⟨e, hp.mem_iff.mpr he, hrest⟩

/-- C9 witness: two concrete two-file group lists that are permutations of
each other give the same count and the same file membership for `"flex"`. -/
theorem C9_merge_order_independent_witness :
    countOf (mergeGroups (fun _ => true)
        [("a.js", ["flex", "p-4"]), ("b.js", ["flex"])]) "flex"
      = countOf (mergeGroups (fun _ => true)
        [("b.js", ["flex"]), ("a.js", ["flex", "p-4"])]) "flex" ∧
    ("b.js" ∈ filesOf (mergeGroups (fun _ => true)
        [("a.js", ["flex", "p-4"]), ("b.js", ["flex"])]) "flex"
      ↔ "b.js" ∈ filesOf (mergeGroups (fun _ => true)
        [("b.js", ["flex"]), ("a.js", ["flex", "p-4"])]) "flex") :=
  ⟨(C9_merge_order_independent (fun _ => true) (by decide) "flex").1,
   (C9_merge_order_independent (fun _ => true) (by decide) "flex").2 "b.js"⟩

/-- `ObfuscationConfig` (src/config.rs, lines 74-95).  The Rust field
`prefix` clashes with a Lean keyword and is named `pre` here. -/
structure ObfuscationConfig where
  enabled : Bool
  pre : String
  seed : Nat
deriving DecidableEq

/-- The `CHARS` alphabet of `to_base62` (src/extractor.rs, line 274). -/
def B62CHARS : List Char :=
  "0123456789ABCDEFGHIJKLMNOPQRSTUVWXYZabcdefghijklmnopqrstuvwxyz".data

/-- `CHARS[(num % 62) as usize]`. -/
def b62char (d : Nat) : Char := B62CHARS.getD d '0'

/-- The digit-extraction loop of `to_base62` (src/extractor.rs, lines
280-285); consing onto the accumulator is the source's push-then-reverse. -/
def to_base62Aux (n : Nat) (acc : List Char) : List Char :=
  if h : n = 0 then acc
  else to_base62Aux (n / 62) (b62char (n % 62) :: acc)
termination_by n
decreasing_by exact Nat.div_lt_self (Nat.pos_of_ne_zero h) (by decide)

/-- `TailwindExtractor::to_base62` (src/extractor.rs, lines 273-288). -/
def to_base62 (num : Nat) : List Char :=
  if num = 0 then ['0'] else to_base62Aux num []

/-- `TailwindExtractor::obfuscate_class` (src/extractor.rs, lines 257-270).
Modelled from the spec: the stable hash (`std::collections::hash_map::
DefaultHasher` seeded with `config.seed` then the class name) is external
library code, abstracted as the parameter `hashFn`; its `finish()` value is a
`u64`, hence the reduction modulo `2^64`. -/
def obfuscate_class (hashFn : Nat → String → Nat)
    (config : ObfuscationConfig) (class_name : String) : List Char :=
  config.pre.data ++ to_base62 (hashFn config.seed class_name % 2 ^ 64)

/-- Base-62 digit value: the index in the alphabet. -/
def b62val (c : Char) : Nat := B62CHARS.indexOf c

/-- Decode a base-62 string (left inverse of `to_base62`). -/
def fromB62 (l : List Char) : Nat := l.foldl (fun a c => a * 62 + b62val c) 0

theorem b62_roundtrip : ∀ x : Fin 62, b62val (b62char x.val) = x.val := by
  decide

theorem to_base62Aux_eq (n : Nat) (acc : List Char) :
    to_base62Aux n acc = if n = 0 then acc
      else to_base62Aux (n / 62) (b62char (n % 62) :: acc) := by
  conv_lhs => rw [to_base62Aux]
  by_cases h : n = 0 <;> simp [h]

theorem to_base62Aux_append (n : Nat) :
    ∀ acc, to_base62Aux n acc = to_base62Aux n [] ++ acc := by
  induction n using Nat.strong_induction_on with
  | _ n ih =>
      intro acc
      by_cases h : n = 0
      · rw [to_base62Aux_eq n acc, to_base62Aux_eq n []]
        simp [h]
      · have hlt : n / 62 < n := Nat.div_lt_self (Nat.pos_of_ne_zero h) (by decide)
        rw [to_base62Aux_eq n acc, to_base62Aux_eq n [], if_neg h, if_neg h]
        rw [ih (n / 62) hlt (b62char (n % 62) :: acc),
          ih (n / 62) hlt [b62char (n % 62)]]
        simp

theorem fromB62_append (a b : List Char) :
    fromB62 (a ++ b) = b.foldl (fun x c => x * 62 + b62val c) (fromB62 a) := by
  simp [fromB62, List.foldl_append]

theorem fromB62_to_base62Aux (n : Nat) : fromB62 (to_base62Aux n []) = n := by
  induction n using Nat.strong_induction_on with
  | _ n ih =>
      by_cases h : n = 0
      · rw [to_base62Aux_eq, if_pos h]
        simp [h, fromB62]
      · have hlt : n / 62 < n := Nat.div_lt_self (Nat.pos_of_ne_zero h) (by decide)
        rw [to_base62Aux_eq, if_neg h]
        rw [to_base62Aux_append, fromB62_append]
        have hd : b62val (b62char (n % 62)) = n % 62 :=
          b62_roundtrip ⟨n % 62, Nat.mod_lt _ (by decide)⟩
        simp only [List.foldl_cons, List.foldl_nil, ih (n / 62) hlt, hd]
        omega

theorem fromB62_to_base62 (n : Nat) : fromB62 (to_base62 n) = n := by
  by_cases h : n = 0
  · rw [to_base62, if_pos h, h]
    decide
  · rw [to_base62, if_neg h]
    exact fromB62_to_base62Aux n

theorem to_base62_injective {a b : Nat} (h : to_base62 a = to_base62 b) :
    a = b := by
  have := congrArg fromB62 h
  rwa [fromB62_to_base62, fromB62_to_base62] at this

theorem startsWithL_append (p rest : List Char) :
    startsWithL p (p ++ rest) = true := by
  induction p with
  | nil => rfl
  | cons c cs ih => simp [startsWithL, ih]

/-- C6: the obfuscation alias is a pure function of the seed, the prefix and
the class name alone (the `enabled` flag and any ambient state are
irrelevant); the result is the configured prefix followed by the fixed-radix
base-62 rendering of the 64-bit hash; and whenever the hashes of two classes
differ, the aliases differ (no zero-collision assertion is made). -/
theorem C6_obfuscation (hashFn : Nat → String → Nat)
    (config1 config2 : ObfuscationConfig) (c c1 c2 : String) :
    (config1.seed = config2.seed → config1.pre = config2.pre →
      obfuscate_class hashFn config1 c = obfuscate_class hashFn config2 c) ∧
    startsWithL config1.pre.data (obfuscate_class hashFn config1 c) = true ∧
    (hashFn config1.seed c1 % 2 ^ 64 ≠ hashFn config1.seed c2 % 2 ^ 64 →
      obfuscate_class hashFn config1 c1 ≠ obfuscate_class hashFn config1 c2) := by
  refine ⟨fun hseed hpre => ?_, ?_, fun hne heq => ?_⟩
  · rw [obfuscate_class, obfuscate_class, hseed, hpre]
  · rw [obfuscate_class]
    exact startsWithL_append _ _
  · rw [obfuscate_class, obfuscate_class] at heq
    exact hne (to_base62_injective (List.append_cancel_left heq))

/-- C6 witness: a concrete hash model and configuration; equal seed and
prefix give equal aliases, the alias carries the prefix, and distinct hashes
give distinct aliases. -/
theorem C6_obfuscation_witness :
    obfuscate_class (fun s c => s + c.utf8ByteSize) ⟨true, "tw", 7⟩ "flex"
      = obfuscate_class (fun s c => s + c.utf8ByteSize) ⟨false, "tw", 7⟩ "flex" ∧
    startsWithL "tw".data
      (obfuscate_class (fun s c => s + c.utf8ByteSize) ⟨true, "tw", 7⟩ "flex")
      = true ∧
    obfuscate_class (fun s c => s + c.utf8ByteSize) ⟨true, "tw", 7⟩ "a"
      ≠ obfuscate_class (fun s c => s + c.utf8ByteSize) ⟨true, "tw", 7⟩ "bc" :=
  ⟨(C6_obfuscation (fun s c => s + c.utf8ByteSize) ⟨true, "tw", 7⟩
      ⟨false, "tw", 7⟩ "flex" "a" "bc").1 rfl rfl,
   (C6_obfuscation (fun s c => s + c.utf8ByteSize) ⟨true, "tw", 7⟩
      ⟨false, "tw", 7⟩ "flex" "a" "bc").2.1,
   (C6_obfuscation (fun s c => s + c.utf8ByteSize) ⟨true, "tw", 7⟩
      ⟨false, "tw", 7⟩ "flex" "a" "bc").2.2 (by decide)⟩

/-- An abstract file-system state: each path maps to the complete content
visible at that path, or `none` when absent. -/
def FState := String → Option String

/-- The steps of `write_atomic` (src/lib.rs, lines 441-457), in program
order: create the sibling temp file, write the full content, flush it
(`sync_all`), rename it over the final path. -/
inductive WStep
  | create
  | writeAll
  | syncAll
  | renameStep
deriving DecidableEq

/-- The step sequence executed by `write_atomic`. -/
def write_atomic_steps : List WStep := [.create, .writeAll, .syncAll, .renameStep]

/-- Effect of one completed step on the file system.  `create` truncates the
temp file, `writeAll` fills it with the full content, `syncAll` changes no
visible content, and the rename atomically moves the temp file over the final
path. -/
def applyStep (tmp fin content : String) (fs : FState) : WStep → FState
  | .create => fun p => if p = tmp then some "" else fs p
  | .writeAll => fun p => if p = tmp then some content else fs p
  | .syncAll => fs
  | .renameStep => fun p =>
      if p = fin then fs tmp else if p = tmp then none else fs p

def runSteps (tmp fin content : String) (fs : FState) : List WStep → FState
  | [] => fs
  | s :: rest => runSteps tmp fin content (applyStep tmp fin content fs s) rest

/-- The file-system state after the first `k` steps of `write_atomic`. -/
def stateAfter (tmp fin content : String) (fs0 : FState) (k : Nat) : FState :=
  runSteps tmp fin content fs0 (write_atomic_steps.take k)

/-- A crash state of an in-progress step: any state agreeing with the base
state everywhere except possibly the temp path (a partially written temp file
is arbitrary). -/
def Interrupted (tmp : String) (fs g : FState) : Prop :=
  ∀ p, p ≠ tmp → g p = fs p

/-- C5: `write_atomic` writes the full content to the sibling temp path,
flushes, and only then renames.  At every point up to (and during) the flush
— including arbitrary partial temp-file contents — the final path still
holds exactly its prior content; after the rename it holds exactly the new
content.  The final path never holds a truncated intermediate. -/
theorem C5_atomic_write (tmp fin content : String) (fs0 : FState)
    (hne : tmp ≠ fin) :
    (∀ k ≤ 3, ∀ g, Interrupted tmp (stateAfter tmp fin content fs0 k) g →
      g fin = fs0 fin) ∧
    stateAfter tmp fin content fs0 4 fin = some content := by
  have hfin : ∀ k, k ≤ 3 → stateAfter tmp fin content fs0 k fin = fs0 fin := by
    intro k hk
    interval_cases k <;>
      simp [stateAfter, write_atomic_steps, runSteps, applyStep, Ne.symm hne]
  refine ⟨fun k hk g hg => ?_, ?_⟩
  · rw [hg fin (Ne.symm hne)]
    exact hfin k hk
  · simp [stateAfter, write_atomic_steps, runSteps, applyStep, hne]

/-- C5 witness: a concrete run interrupted right before the rename leaves the
prior content at the final path, and the completed run installs the new
content. -/
theorem C5_atomic_write_witness :
    stateAfter "out.css..tmp" "out.css" "new"
      (fun q => if q = "out.css" then some "old" else none) 3 "out.css"
      = (fun q : String => if q = "out.css" then some "old" else none) "out.css" ∧
    stateAfter "out.css..tmp" "out.css" "new"
      (fun q => if q = "out.css" then some "old" else none) 4 "out.css"
      = some "new" :=
  ⟨(C5_atomic_write "out.css..tmp" "out.css" "new"
      (fun q => if q = "out.css" then some "old" else none) (by decide)).1
      3 (by omega) _ (fun _ _ => rfl),
   (C5_atomic_write "out.css..tmp" "out.css" "new"
      (fun q => if q = "out.css" then some "old" else none) (by decide)).2⟩

/-- A candidate input file with the attributes the security gate inspects.
`target_in_root` abstracts "the canonicalized symlink target starts with the
canonicalized working directory" (src/lib.rs, lines 307-321). -/
structure FileMeta where
  path : String
  is_symlink : Bool
  target_in_root : Bool
  size : Nat
deriving DecidableEq

/-- `SecurityConfig` (src/lib.rs, lines 21-29); the working directory is
folded into `FileMeta.target_in_root`. -/
structure SecurityCfg where
  max_file_size : Nat
  allow_symlinks : Bool
deriving DecidableEq

/-- `validate_input_file` (src/lib.rs, lines 298-339). -/
def validate_input_file (security : SecurityCfg) (f : FileMeta) :
    Except String Unit :=
  if !security.allow_symlinks && f.is_symlink then
    .error "Symbolic link not allowed"
  else if security.allow_symlinks && f.is_symlink && !f.target_in_root then
    .error "Symlink target is outside working directory"
  else if f.size > security.max_file_size then
    .error "File exceeds maximum size limit"
  else .ok ()

/-- The validation of a file fails (it would be skipped with a warning). -/
def validationFails (security : SecurityCfg) (f : FileMeta) : Bool :=
  match validate_input_file security f with
  | .error _ => true
  | .ok _ => false

/-- The per-file loop of `collect_files_with_security` (src/lib.rs, lines
351-391): validate, on failure skip and count, otherwise keep the file unless
its path was already seen.  Candidates are the glob results after exclusion
and directory filtering. -/
def collect_files_with_security (security : SecurityCfg) :
    List FileMeta → List String → List FileMeta × Nat
  | [], _ => ([], 0)
  | f :: rest, seen =>
      match validate_input_file security f with
      | .error _ =>
          let r := collect_files_with_security security rest seen
          (r.1, r.2 + 1)
      | .ok _ =>
          if f.path ∈ seen then collect_files_with_security security rest seen
          else
            let r := collect_files_with_security security rest (f.path :: seen)
            (f :: r.1, r.2)

/-- The per-file mapping of `extract_strings_parallel_with_progress`
(src/lib.rs, lines 479-516): empty files short-circuit to `Ok(vec![])`,
otherwise the file is parsed; `collect::<Result<...>>` fails the whole run on
the first per-file error.  The external parse-and-visit is `parseFn`. -/
def extract_results (parseFn : FileMeta → Except String (List ExtractedString)) :
    List FileMeta → Except String (List ExtractedString)
  | [] => .ok []
  | f :: rest =>
      match (if f.size = 0 then .ok [] else parseFn f) with
      | .error e => .error e
      | .ok v =>
          match extract_results parseFn rest with
          | .error e => .error e
          | .ok vs => .ok (v ++ vs)

/-- `extract_strings_parallel_with_progress` (src/lib.rs, lines 460-528):
collect per-file results, then deduplicate by `(value, file, line, column)`. -/
def extract_strings_parallel_with_progress
    (parseFn : FileMeta → Except String (List ExtractedString))
    (files : List FileMeta) : Except String (List ExtractedString) :=
  (extract_results parseFn files).map dedupExtracted

theorem collect_skips_and_continues (security : SecurityCfg) :
    ∀ (candidates : List FileMeta) (seen : List String),
      (∀ f ∈ (collect_files_with_security security candidates seen).1,
        validate_input_file security f = .ok ()) ∧
      (∀ f ∈ candidates, validate_input_file security f = .ok () →
        f.path ∉ seen →
        ∃ g ∈ (collect_files_with_security security candidates seen).1,
          g.path = f.path) ∧
      (collect_files_with_security security candidates seen).2
        = candidates.countP (validationFails security) := by
  intro candidates
  induction candidates with
  | nil =>
      intro seen
      refine ⟨by simp [collect_files_with_security], by simp, ?_⟩
      simp [collect_files_with_security]
  | cons f rest ih =>
      intro seen
      rcases hv : validate_input_file security f with e | u
      · have hvf : validationFails security f = true := by
          simp [validationFails, hv]
        refine ⟨?_, ?_, ?_⟩
        · intro g hg
          rw [collect_files_with_security, hv] at hg
          exact (ih seen).1 g hg
        · intro g hg hok hns
          rw [collect_files_with_security, hv]
          rcases List.mem_cons.mp hg with rfl | hg'
          · rw [hok] at hv; cases hv
          · exact (ih seen).2.1 g hg' hok hns
        · rw [collect_files_with_security, hv, List.countP_cons]
          simp [hvf, (ih seen).2.2]
      · have hvf : validationFails security f = false := by
          simp [validationFails, hv]
        by_cases hseen : f.path ∈ seen
        · refine ⟨?_, ?_, ?_⟩
          · intro g hg
            rw [collect_files_with_security, hv, if_pos hseen] at hg
            exact (ih seen).1 g hg
          · intro g hg hok hns
            rw [collect_files_with_security, hv, if_pos hseen]
            rcases List.mem_cons.mp hg with rfl | hg'
            · exact absurd hseen hns
            · exact (ih seen).2.1 g hg' hok hns
          · rw [collect_files_with_security, hv, if_pos hseen, List.countP_cons]
            simp [hvf, (ih seen).2.2]
        · refine ⟨?_, ?_, ?_⟩
          · intro g hg
            rw [collect_files_with_security, hv, if_neg hseen] at hg
            rcases List.mem_cons.mp hg with rfl | hg'
            · cases u; exact hv
            · exact (ih (f.path :: seen)).1 g hg'
          · intro g hg hok hns
            rw [collect_files_with_security, hv, if_neg hseen]
            rcases List.mem_cons.mp hg with rfl | hg'
            · exact ⟨g, List.mem_cons_self .., rfl⟩
            · by_cases hgp : g.path = f.path
              · exact ⟨f, List.mem_cons_self .., hgp.symm⟩
              · obtain ⟨g', hg'mem, hg'p⟩ := (ih (f.path :: seen)).2.1 g hg' hok
                  (by simp [hgp, hns])
                exact ⟨g', List.mem_cons_of_mem _ hg'mem, hg'p⟩
          · rw [collect_files_with_security, hv, if_neg hseen, List.countP_cons]
            simp [hvf, (ih (f.path :: seen)).2.2]

theorem extract_results_ok (parseFn : FileMeta → Except String (List ExtractedString)) :
    ∀ files : List FileMeta,
      (∀ f ∈ files, f.size = 0 ∨ ∃ v, parseFn f = .ok v) →
      ∃ v, extract_results parseFn files = .ok v := by
  intro files
  induction files with
  | nil => exact fun _ => ⟨[], rfl⟩
  | cons f rest ih =>
      intro h
      obtain ⟨vs, hvs⟩ := ih fun g hg => h g (List.mem_cons_of_mem _ hg)
      rcases h f (List.mem_cons_self ..) with h0 | ⟨v, hv⟩
      · refine ⟨[] ++ vs, ?_⟩
        rw [extract_results, if_pos h0, hvs]
      · by_cases h0 : f.size = 0
        · refine ⟨[] ++ vs, ?_⟩
          rw [extract_results, if_pos h0, hvs]
        · refine ⟨v ++ vs, ?_⟩
          rw [extract_results, if_neg h0, hv, hvs]

theorem extract_results_fail_fast
    (parseFn : FileMeta → Except String (List ExtractedString)) :
    ∀ (files : List FileMeta) (f : FileMeta) (e : String),
      f ∈ files → parseFn f = .error e → f.size ≠ 0 →
      ∃ e', extract_results parseFn files = .error e' := by
  intro files
  induction files with
  | nil => intro f e hf; cases hf
  | cons g rest ih =>
      intro f e hf he hsz
      rcases List.mem_cons.mp hf with rfl | hf'
      · refine ⟨e, ?_⟩
        rw [extract_results, if_neg hsz, he]
      · rcases hg : (if g.size = 0 then Except.ok [] else parseFn g) with eg | vg
        · exact ⟨eg, by rw [extract_results, hg]⟩
        · obtain ⟨e', he'⟩ := ih f e hf' he hsz
          exact ⟨e', by rw [extract_results, hg, he']⟩

/-- C7: a candidate input file that fails the security gate is skipped (it is
counted, never surfaces in the collected set, and the remaining valid files
are still collected), while a parse error on any single non-empty file makes
the whole extraction return an error (fail-fast); runs whose files all parse
succeed. -/
theorem C7_error_policy (security : SecurityCfg)
    (parseFn : FileMeta → Except String (List ExtractedString))
    (candidates : List FileMeta) (seen : List String) (files : List FileMeta)
    (f : FileMeta) (e : String) :
    (∀ g ∈ (collect_files_with_security security candidates seen).1,
      validate_input_file security g = .ok ()) ∧
    (∀ g ∈ candidates, validate_input_file security g = .ok () →
      g.path ∉ seen →
      ∃ g' ∈ (collect_files_with_security security candidates seen).1,
        g'.path = g.path) ∧
    (collect_files_with_security security candidates seen).2
      = candidates.countP (validationFails security) ∧
    ((∀ g ∈ files, g.size = 0 ∨ ∃ v, parseFn g = .ok v) →
      ∃ v, extract_strings_parallel_with_progress parseFn files = .ok v) ∧
    (f ∈ files → parseFn f = .error e → f.size ≠ 0 →
      ∃ e', extract_strings_parallel_with_progress parseFn files = .error e') := by
  obtain ⟨h1, h2, h3⟩ := collect_skips_and_continues security candidates seen
  refine ⟨h1, h2, h3, fun hok => ?_, fun hf he hsz => ?_⟩
  · obtain ⟨v, hv⟩ := extract_results_ok parseFn files hok
    exact ⟨dedupExtracted v,
      by rw [extract_strings_parallel_with_progress, hv]; rfl⟩
  · obtain ⟨e', he'⟩ := extract_results_fail_fast parseFn files f e hf he hsz
    exact ⟨e', by rw [extract_strings_parallel_with_progress, he']; rfl⟩

/-- C7 witness: one oversized candidate is skipped while its valid sibling is
collected, and one failing parse aborts a two-file run. -/
theorem C7_error_policy_witness :
    (∀ g ∈ (collect_files_with_security ⟨100, false⟩
        [⟨"big.js", false, true, 500⟩, ⟨"ok.js", false, true, 10⟩] []).1,
      validate_input_file ⟨100, false⟩ g = .ok ()) ∧
    (∃ g' ∈ (collect_files_with_security ⟨100, false⟩
        [⟨"big.js", false, true, 500⟩, ⟨"ok.js", false, true, 10⟩] []).1,
      g'.path = "ok.js") ∧
    (∃ e', extract_strings_parallel_with_progress
        (fun g => if g.path = "bad.js" then .error "parse error"
                  else .ok [⟨"flex", g.path, 1, 0⟩])
        [⟨"good.js", false, true, 10⟩, ⟨"bad.js", false, true, 10⟩]
      = .error e') := by
  have h := C7_error_policy ⟨100, false⟩
    (fun g => if g.path = "bad.js" then .error "parse error"
              else .ok [⟨"flex", g.path, 1, 0⟩])
    [⟨"big.js", false, true, 500⟩, ⟨"ok.js", false, true, 10⟩] []
    [⟨"good.js", false, true, 10⟩, ⟨"bad.js", false, true, 10⟩]
    ⟨"bad.js", false, true, 10⟩ "parse error"
  exact ⟨h.1,
    h.2.1 ⟨"ok.js", false, true, 10⟩ (by decide) rfl (by decide),
    h.2.2.2.2 (by decide) rfl (by decide)⟩

/-- A path: absolute flag plus components (Rust `PathBuf`, at the granularity
`validate_output_path` inspects). -/
structure RPath where
  absolute : Bool
  comps : List String
deriving DecidableEq

/-- Rust `Path::is_relative`. -/
def RPath.is_relative (p : RPath) : Bool := !p.absolute

/-- Component-wise prefix test. -/
def prefixComps : List String → List String → Bool
  | [], _ => true
  | _ :: _, [] => false
  | a :: as, b :: bs => a == b && prefixComps as bs

/-- Rust `Path::starts_with`. -/
def RPath.startsWithP (pre p : RPath) : Bool :=
  (p.absolute == pre.absolute) && prefixComps pre.comps p.comps

/-- `canonicalize().unwrap_or_else(|_| original)` — `canon` is the external
file-system resolution, `none` models an `Err` (e.g. a non-existent path). -/
def canonOr (canon : RPath → Option RPath) (p : RPath) : RPath :=
  (canon p).getD p

/-- `validate_output_path` (src/lib.rs, lines 282-295).  Note the source
rejects only when the canonical path escapes the working directory AND the
configured path `is_relative()`. -/
def validate_output_path (canon : RPath → Option RPath)
    (working_directory : RPath) (path : RPath) : Except String Unit :=
  let canonical := canonOr canon path
  let working_dir := canonOr canon working_directory
  if !(RPath.startsWithP working_dir canonical) && path.is_relative then
    .error "Output path appears to use path traversal"
  else .ok ()

/-- The opening of `extract` (src/lib.rs, lines 100-124): both output paths
are validated before any input file is discovered; then files are collected
and an empty set is `NoFilesFound`. -/
def extractPipelineHead (canon : RPath → Option RPath)
    (working_directory output_css output_manifest : RPath)
    (security : SecurityCfg) (candidates : List FileMeta) :
    Except String (List FileMeta) :=
  match validate_output_path canon working_directory output_css with
  | .error e => .error e
  | .ok _ =>
      match validate_output_path canon working_directory output_manifest with
      | .error e => .error e
      | .ok _ =>
          let files := (collect_files_with_security security candidates []).1
          if files.isEmpty then .error "No files found"
          else .ok files

/-- C8 counterexample to the claim as stated: an ABSOLUTE output path whose
resolved location escapes the working-directory root passes
`validate_output_path` (the source couples the escape test with
`path.is_relative()`), and the pipeline runs to completion instead of failing
with a security error. -/
theorem C8_output_validation_counterexample :
    RPath.startsWithP (canonOr some ⟨true, ["work"]⟩)
      (canonOr some ⟨true, ["etc", "out.css"]⟩) = false ∧
    validate_output_path some ⟨true, ["work"]⟩ ⟨true, ["etc", "out.css"]⟩
      = .ok () ∧
    extractPipelineHead some ⟨true, ["work"]⟩ ⟨true, ["etc", "out.css"]⟩
      ⟨true, ["etc", "out.json"]⟩ ⟨100, false⟩ [⟨"a.js", false, true, 10⟩]
      = .ok [⟨"a.js", false, true, 10⟩] := by
  refine ⟨by decide, rfl, rfl⟩

/-- C8 (amended): for every RELATIVE configured output path whose resolved
location escapes the working-directory root, validation fails with a security
error and the pipeline returns that error without depending on the candidate
input files in any way (they are never discovered or processed). -/
theorem C8_output_validation (canon : RPath → Option RPath)
    (working_directory output_css output_manifest : RPath)
    (security : SecurityCfg)
    (hrel : output_css.is_relative = true)
    (hesc : RPath.startsWithP (canonOr canon working_directory)
      (canonOr canon output_css) = false) :
    validate_output_path canon working_directory output_css
      = .error "Output path appears to use path traversal" ∧
    ∀ candidates1 candidates2 : List FileMeta,
      extractPipelineHead canon working_directory output_css output_manifest
        security candidates1
      = .error "Output path appears to use path traversal" ∧
      extractPipelineHead canon working_directory output_css output_manifest
        security candidates1
      = extractPipelineHead canon working_directory output_css output_manifest
        security candidates2 := by
  have hv : validate_output_path canon working_directory output_css
      = .error "Output path appears to use path traversal" := by
    rw [validate_output_path]
    simp only [hesc, hrel, Bool.not_false, Bool.and_true, Bool.true_and]
    rfl
  refine ⟨hv, fun candidates1 candidates2 => ?_⟩
  constructor
  · rw [extractPipelineHead, hv]
  · rw [extractPipelineHead, hv, extractPipelineHead, hv]

/-- C8 witness: a concrete `../`-style relative output path on a file system
where it does not resolve (`canonicalize` fails, the path is kept as-is)
escapes the root and aborts the pipeline regardless of the candidates. -/
theorem C8_output_validation_witness :
    validate_output_path (fun _ => none) ⟨true, ["work"]⟩
      ⟨false, ["..", "etc", "x.css"]⟩
      = .error "Output path appears to use path traversal" ∧
    extractPipelineHead (fun _ => none) ⟨true, ["work"]⟩
      ⟨false, ["..", "etc", "x.css"]⟩ ⟨false, ["m.json"]⟩ ⟨100, false⟩
      [⟨"a.js", false, true, 10⟩]
      = .error "Output path appears to use path traversal" :=
  ⟨(C8_output_validation (fun _ => none) ⟨true, ["work"]⟩
      ⟨false, ["..", "etc", "x.css"]⟩ ⟨false, ["m.json"]⟩ ⟨100, false⟩
      rfl (by decide)).1,
   ((C8_output_validation (fun _ => none) ⟨true, ["work"]⟩
      ⟨false, ["..", "etc", "x.css"]⟩ ⟨false, ["m.json"]⟩ ⟨100, false⟩
      rfl (by decide)).2 [⟨"a.js", false, true, 10⟩] []).1⟩

/-- `extract_strings_from_content` (src/ast_visitor.rs, lines 215-267).
Rust's `content.len()` is the UTF-8 byte length.  The external swc parse and
visitor walk is `parseFn`. -/
def extract_strings_from_content
    (parseFn : String → String → Except String (List ExtractedString))
    (content source_name : String) : Except String (List ExtractedString) :=
  if content.utf8ByteSize < 10 then .ok []
  else parseFn content source_name

/-- `extract_strings_from_file` (src/ast_visitor.rs, lines 143-212): read the
file (`readFn` is the external `fs::read_to_string`), short-circuit on small
content, otherwise parse and visit. -/
def extract_strings_from_file
    (readFn : String → Except String String)
    (parseFn : String → String → Except String (List ExtractedString))
    (file_path : String) : Except String (List ExtractedString) :=
  match readFn file_path with
  | .error e => .error e
  | .ok content =>
      if content.utf8ByteSize < 10 then .ok []
      else parseFn content file_path

/-- C10: any content shorter than 10 bytes makes both extraction entry points
return `Ok([])` for every possible parser — the parse step is never reached,
even when the content is valid JavaScript holding class-bearing literals. -/
theorem C10_small_content_short_circuit
    (parseFn : String → String → Except String (List ExtractedString))
    (readFn : String → Except String String)
    (content source_name file_path : String)
    (hsmall : content.utf8ByteSize < 10)
    (hread : readFn file_path = .ok content) :
    extract_strings_from_content parseFn content source_name = .ok [] ∧
    extract_strings_from_file readFn parseFn file_path = .ok [] := by
  constructor
  · rw [extract_strings_from_content, if_pos hsmall]
  · rw [extract_strings_from_file, hread]
    show (if content.utf8ByteSize < 10 then Except.ok []
      else parseFn content file_path) = _
    rw [if_pos hsmall]

/-- C10 witness: `x="p-4"` is 8 bytes of valid JavaScript containing a
class-bearing string literal, and extraction returns no strings even under a
parser that would extract `p-4` from it. -/
theorem C10_small_content_short_circuit_witness :
    extract_strings_from_content
      (fun _ name => .ok [⟨"p-4", name, 1, 3⟩]) "x=\"p-4\"" "stdin" = .ok [] ∧
    extract_strings_from_file (fun _ => .ok "x=\"p-4\"")
      (fun _ name => .ok [⟨"p-4", name, 1, 3⟩]) "small.js" = .ok [] :=
  C10_small_content_short_circuit (fun _ name => .ok [⟨"p-4", name, 1, 3⟩])
    (fun _ => .ok "x=\"p-4\"") "x=\"p-4\"" "stdin" "small.js" (by decide) rfl

end TWX
